import Mathlib

set_option maxRecDepth 8000

namespace HHG

/-! Shallow embedding of `src/main.py` (HHG handbook acknowledgment bot).
    Python strings are modeled over `List Char` / `String`; the semantics of
    Python `re` for the fixed pattern `ACK_PATTERN` is embedded as an explicit
    backtracking matcher, and `difflib.SequenceMatcher(None, a, b).ratio()` is
    embedded over `Rat`.  ASCII model: `\s`, `\d`, `str.lower`, `str.strip` are
    modeled on their ASCII behavior (all texts in the spec are ASCII). -/

/-- Python whitespace test (`\s`, `str.strip`, `str.split`), ASCII range. -/
def isPySpace (c : Char) : Bool :=
  c = ' ' || c = '\t' || c = '\n' || c = '\r' || c = '\x0b' || c = '\x0c'

/-- Python `str.lower`, ASCII model (also used for SQL `LOWER`). -/
def pyLower (s : String) : String := ⟨s.toList.map Char.toLower⟩

/-- Strip leading and trailing whitespace from a character list. -/
def stripList (l : List Char) : List Char :=
  ((l.dropWhile isPySpace).reverse.dropWhile isPySpace).reverse

/-- Python `str.strip()`. -/
def pyStrip (s : String) : String := ⟨stripList s.toList⟩

/-- Helper for `pySplit`: accumulate the current token (reversed). -/
def splitAux : List Char → List Char → List (List Char)
  | [], acc => if acc.isEmpty then [] else [acc.reverse]
  | c :: r, acc =>
    if isPySpace c then
      if acc.isEmpty then splitAux r [] else acc.reverse :: splitAux r []
    else splitAux r (c :: acc)

/-- Python `str.split()` with no argument: split on whitespace runs, no empty tokens. -/
def pySplit (s : String) : List String := (splitAux s.toList []).map (fun l => ⟨l⟩)

/-- Case-insensitive character comparison (`re.IGNORECASE`, ASCII model). -/
def lowEq (a b : Char) : Bool := a.toLower = b.toLower

/-- Match a literal word case-insensitively, returning the remainder. -/
def matchLit : List Char → List Char → Option (List Char)
  | [], s => some s
  | _ :: _, [] => none
  | c :: w, d :: s => if lowEq c d then matchLit w s else none

/-- The regex piece `,?`.  In `ACK_PATTERN` every `,?` is directly followed by
    `\s+`, so the greedy optional comma is deterministic: if a comma is present
    it must be consumed (otherwise `\s+` fails on the comma), and if absent only
    the 0-repetition branch exists. -/
def chompComma : List Char → List Char
  | ',' :: r => r
  | s => s

/-- The regex piece `\s+` in a context where it is followed by a non-space,
    non-comma character: maximal munch is exact, since giving back a character
    leaves a space where a word character is required. -/
def chompWs : List Char → Option (List Char)
  | [] => none
  | c :: r => if isPySpace c then some (r.dropWhile isPySpace) else none

/-- Character class `[\d\-]` (ASCII digits model of `\d`). -/
def isVClass (c : Char) : Bool := c.isDigit || c = '-'

/-- Capture group 2, `(v[\d\-]+)`: a `v` (case-insensitive) followed by a greedy
    nonempty run of digits and hyphens.  It ends the pattern, so maximal munch is
    exact.  Returns (captured text, remainder). -/
def vGroup : List Char → Option (List Char × List Char)
  | [] => none
  | c :: r =>
    if lowEq 'v' c then
      match r with
      | [] => none
      | d :: r' =>
        if isVClass d then some (c :: d :: r'.takeWhile isVClass, r'.dropWhile isVClass)
        else none
    else none

/-- One element of the fixed pattern tail: a `\s+` gap or a literal word. -/
inductive PatElem
  | ws
  | lit (w : List Char)

def runElem : PatElem → List Char → Option (List Char)
  | .ws, s => chompWs s
  | .lit w, s => matchLit w s

def runPat : List PatElem → List Char → Option (List Char)
  | [], s => some s
  | e :: es, s => (runElem e s).bind (runPat es)

/-- The fixed tail of `ACK_PATTERN` after the optional comma following group 1:
    `\s+acknowledge\s+and\s+agree\s+to\s+the\s+HHG\s+Employee\s+Handbook\s+`. -/
def tailPat : List PatElem :=
  [.ws, .lit "acknowledge".toList, .ws, .lit "and".toList, .ws, .lit "agree".toList,
   .ws, .lit "to".toList, .ws, .lit "the".toList, .ws, .lit "HHG".toList,
   .ws, .lit "Employee".toList, .ws, .lit "Handbook".toList, .ws]

/-- Everything of `ACK_PATTERN` after capture group 1 (`,?` + `tailPat` +
    group 2).  Deterministic; returns (group-2 capture, remainder). -/
def restMatch (s : List Char) : Option (List Char × List Char) :=
  (runPat tailPat (chompComma s)).bind vGroup

/-- Well-formedness of a tail element used by the localization lemmas: a word
    is nonempty and contains no comma (so no tail element can start matching at
    a comma). -/
def elemOk : PatElem → Bool
  | .ws => true
  | .lit w => !w.isEmpty && w.all fun c => !lowEq c ','

/-- Lazy capture group 1 `(.+?)`: try lengths 1, 2, … (shortest first); `.` does
    not match a newline.  Returns (group-1 capture, group-2 capture, remainder). -/
def tryGroup1 (t : List Char) : Option (List Char × List Char × List Char) :=
  (List.range' 1 t.length).findSome? fun k =>
    let g := t.take k
    if g.all (fun c => c ≠ '\n') then
      (restMatch (t.drop k)).map fun p => (g, p.1, p.2)
    else none

/-- Greedy `\s+` before group 1: candidate consumption depths, longest first. -/
def wsDepths (s : List Char) : List Nat :=
  let w := (s.takeWhile isPySpace).length
  (List.range w).map (fun i => w - i)

/-- Attempt `ACK_PATTERN` anchored at the start of the input:
    `I,?\s+(.+?),?\s+acknowledge…Handbook\s+(v[\d\-]+)` (case-insensitive).
    Returns the two raw captures. -/
def matchAck : List Char → Option (List Char × List Char)
  | [] => none
  | c :: r =>
    if lowEq 'i' c then
      let r1 := chompComma r
      (wsDepths r1).findSome? fun d =>
        (tryGroup1 (r1.drop d)).map fun p => (p.1, p.2.1)
    else none

/-- Python `re.search`: try each start position left to right. -/
def searchAck : List Char → Option (List Char × List Char)
  | [] => none
  | c :: r => (matchAck (c :: r)).orElse fun _ => searchAck r

/-- Lines 141–146 of `main.py`: `ACK_PATTERN.search(text)` followed by
    `match.group(1).strip()` and `match.group(2).strip()`. -/
def extractAck (text : String) : Option (String × String) :=
  (searchAck text.toList).map fun p => (pyStrip ⟨p.1⟩, pyStrip ⟨p.2⟩)

/-- The canonical acknowledgment phrase, exactly as the bot itself reconstructs
    it in the suggestion reply on line 192 of `main.py`. -/
def mkAckText (name version : String) : String :=
  "I, " ++ name ++ ", acknowledge and agree to the HHG Employee Handbook " ++ version

/-! ### difflib.SequenceMatcher(None, a, b).ratio() -/

/-- Indices of occurrences of `c` in `b` (difflib's `b2j`), honoring the
    autojunk heuristic of `SequenceMatcher(None, a, b)`: for `len(b) >= 200`,
    characters occurring more than `len(b)//100 + 1` times are dropped. -/
def getJs (b : List Char) (c : Char) : List Nat :=
  let idxs := (List.range b.length).filter fun i => b.getD i '\x00' = c
  if b.length ≥ 200 && idxs.length > b.length / 100 + 1 then [] else idxs

/-- State of difflib's `find_longest_match`. -/
structure FLM where
  besti : Nat
  bestj : Nat
  bestsize : Nat
deriving Repr, DecidableEq

/-- The dynamic-programming loop of `find_longest_match`: for each `i`, for each
    `j` with `b[j] = a[i]` in window, chain length `k = j2len[j-1] + 1`; keep the
    first longest.  `j2len` is the previous row, read with default `0`. -/
def flmDP (a b : List Char) (alo ahi blo bhi : Nat) : FLM :=
  let outer := fun (st : (Nat → Nat) × FLM) (i : Nat) =>
    let j2len := st.1
    let js := (getJs b (a.getD i '\x00')).filter fun j => blo ≤ j && j < bhi
    js.foldl (fun (p : (Nat → Nat) × FLM) j =>
      let k := (if j = 0 then 0 else j2len (j - 1)) + 1
      let nj := fun x => if x = j then k else p.1 x
      let best := if k > p.2.bestsize then ⟨i + 1 - k, j + 1 - k, k⟩ else p.2
      (nj, best)) ((fun _ => 0), st.2)
  ((List.range' alo (ahi - alo)).foldl outer ((fun _ => 0), ⟨alo, blo, 0⟩)).2

/-- difflib's left extension loop (`isjunk=None`, so only the plain-equality
    loop runs).  Fuel-driven; `besti` strictly decreases, so fuel `besti`
    always suffices. -/
def extLeft (a b : List Char) (alo blo : Nat) : Nat → FLM → FLM
  | 0, st => st
  | fuel + 1, st =>
    if st.besti > alo && st.bestj > blo &&
        a.getD (st.besti - 1) '\x00' = b.getD (st.bestj - 1) '\x01' then
      extLeft a b alo blo fuel ⟨st.besti - 1, st.bestj - 1, st.bestsize + 1⟩
    else st

/-- difflib's right extension loop.  Fuel-driven; `bestsize` strictly increases
    and is bounded by `ahi`, so fuel `ahi` always suffices. -/
def extRight (a b : List Char) (ahi bhi : Nat) : Nat → FLM → FLM
  | 0, st => st
  | fuel + 1, st =>
    if st.besti + st.bestsize < ahi && st.bestj + st.bestsize < bhi &&
        a.getD (st.besti + st.bestsize) '\x00' = b.getD (st.bestj + st.bestsize) '\x01' then
      extRight a b ahi bhi fuel ⟨st.besti, st.bestj, st.bestsize + 1⟩
    else st

/-- difflib `find_longest_match` for `SequenceMatcher(None, a, b)`: the DP loop,
    then the two plain extension loops (the junk extension loops are no-ops
    because `bjunk` is empty when `isjunk=None`). -/
def find_longest_match (a b : List Char) (alo ahi blo bhi : Nat) : FLM :=
  let st := flmDP a b alo ahi blo bhi
  let st1 := extLeft a b alo blo st.besti st
  extRight a b ahi bhi (ahi + bhi) st1

/-- Total matched size over difflib's recursive block decomposition
    (`get_matching_blocks`), which is the quantity `ratio` uses.  Fuel-driven;
    each recursive level removes a nonempty block, so the initial fuel
    `len a + len b + 1` always suffices. -/
def matchTotal (a b : List Char) : Nat → Nat → Nat → Nat → Nat → Nat
  | 0, _, _, _, _ => 0
  | fuel + 1, alo, ahi, blo, bhi =>
    let st := find_longest_match a b alo ahi blo bhi
    if st.bestsize = 0 then 0
    else
      matchTotal a b fuel alo st.besti blo st.bestj + st.bestsize +
        matchTotal a b fuel (st.besti + st.bestsize) ahi (st.bestj + st.bestsize) bhi

/-- difflib `SequenceMatcher(None, a, b).ratio()`, over exact rationals:
    `2*M/T` with `T = len(a) + len(b)`, and `1` when `T = 0`
    (`difflib._calculate_ratio`).  The Python code compares the resulting
    IEEE double against the literals `0.8` and thresholds; the comparison is
    modeled over `Rat`. -/
def ratio (sa sb : String) : ℚ :=
  let a := sa.toList
  let b := sb.toList
  let M := matchTotal a b (a.length + b.length + 1) 0 a.length 0 b.length
  let T := a.length + b.length
  if T = 0 then 1 else mkRat (2 * M) T

/-- Exact rational addition through `mkRat` (equal to `+` on `ℚ`, proved in
    `ratAdd_eq_add` below; stated this way so that concrete scores evaluate
    inside the kernel). -/
def ratAdd (a b : ℚ) : ℚ := mkRat (a.num * b.den + b.num * a.den) (a.den * b.den)

/-! ### Data model and storage operations -/

/-- Row of the `employees` table (columns the core reads/writes; nullable
    columns are `Option`). -/
structure Employee where
  id : Nat
  full_name : Option String
  telegram_user_id : Option String
  telegram_username : Option String
deriving Repr, DecidableEq

/-- Row of the `acknowledgments` table.  The server-assigned `acknowledged_at`
    timestamp and the raw JSON audit payload are opaque to every claim and are
    not modeled. -/
structure AckRow where
  employee_id : Nat
  handbook_version : String
  ack_text : String
  telegram_chat_id : Int
  telegram_message_id : Nat
  telegram_message_date : Int
deriving Repr, DecidableEq

/-- The persistent store. -/
structure DBState where
  employees : List Employee
  acknowledgments : List AckRow
deriving Repr, DecidableEq

/-- `find_employee_by_name` (lines 31–38): first row with
    `LOWER(full_name) = LOWER(%s)`; a SQL NULL name never compares equal. -/
def find_employee_by_name (st : DBState) (full_name : String) : Option Employee :=
  st.employees.find? fun e =>
    match e.full_name with
    | some nm => pyLower nm = pyLower full_name
    | none => false

/-- Transient candidate match produced by the fuzzy resolver. -/
structure Candidate where
  id : Nat
  full_name : String
  score : ℚ
deriving Repr, DecidableEq

/-- Lines 50–67 of `main.py`: full-string ratio plus a 0.15 bonus when some
    input token and some stored-name token have ratio > 0.8.  The `break` only
    leaves the inner loop and the bonus assignment is idempotent, so the double
    loop equals this existential check. -/
def scoreOf (input_lower : String) (input_parts : List String) (emp_name : String) : ℚ :=
  let emp_lower := pyLower emp_name
  let emp_parts := pySplit emp_lower
  let r := ratio input_lower emp_lower
  let bonus : ℚ :=
    if input_parts.any (fun ip => emp_parts.any fun ep => ratio ip ep > mkRat 4 5)
    then mkRat 3 20 else 0
  ratAdd r bonus

/-- Insert into a descending-sorted list, placing the new element before the
    first strictly smaller score; combined with `List.foldr` this is Python's
    stable `list.sort(key=score, reverse=True)`. -/
def insertDesc (c : Candidate) : List Candidate → List Candidate
  | [] => [c]
  | d :: ds => if c.score ≥ d.score then c :: d :: ds else d :: insertDesc c ds

/-- Stable descending sort by score. -/
def sortDesc (l : List Candidate) : List Candidate := l.foldr insertDesc []

/-- `find_similar_names` (lines 40–78): SQL filters `full_name IS NOT NULL`; the
    loop scores each row, keeps scores ≥ 0.6 (default `threshold`), sorts by
    score descending and truncates to the top 3. -/
def find_similar_names (st : DBState) (full_name : String) : List Candidate :=
  let input_lower := pyLower full_name
  let input_parts := pySplit input_lower
  let scored := st.employees.filterMap fun e =>
    match e.full_name with
    | none => none
    | some nm =>
      let sc := scoreOf input_lower input_parts nm
      if sc ≥ mkRat 3 5 then some (⟨e.id, nm, sc⟩ : Candidate) else none
  (sortDesc scored).take 3

/-- Claim C5's wording of the resolver: score every employee with a NON-EMPTY
    stored name, keep the candidates scoring ≥ 0.6, sorted descending,
    truncated to at most 3. -/
def find_similar_names_claim (st : DBState) (full_name : String) : List Candidate :=
  let input_lower := pyLower full_name
  let input_parts := pySplit input_lower
  let cands := (st.employees.filter fun e =>
      e.full_name.isSome && e.full_name != some "").map fun e =>
    let nm := e.full_name.getD ""
    (⟨e.id, nm, scoreOf input_lower input_parts nm⟩ : Candidate)
  (sortDesc (cands.filter fun c => c.score ≥ mkRat 3 5)).take 3

/-- `update_employee_telegram` (lines 80–90): set the Telegram binding on the
    row with the given id, and commit. -/
def update_employee_telegram (st : DBState) (employee_id : Nat)
    (telegram_user_id telegram_username : String) : DBState :=
  { st with employees := st.employees.map fun e =>
      if e.id = employee_id then
        { e with telegram_user_id := some telegram_user_id
                 telegram_username := some telegram_username }
      else e }

/-- `insert_acknowledgment` (lines 92–118): append a ledger row and commit. -/
def insert_acknowledgment (st : DBState) (employee_id : Nat) (version ack_text : String)
    (chat_id : Int) (message_id : Nat) (message_date : Int) : DBState :=
  { st with acknowledgments := st.acknowledgments ++
      [⟨employee_id, version, ack_text, chat_id, message_id, message_date⟩] }

/-- `check_existing_acknowledgment` (lines 120–128). -/
def check_existing_acknowledgment (st : DBState) (employee_id : Nat) (version : String) : Bool :=
  st.acknowledgments.any fun r =>
    r.employee_id == employee_id && r.handbook_version == version

/-! ### Message pipeline (`handle_message`, lines 130–233) -/

/-- Failure class of a storage-layer insert. -/
inductive InsertError
  | uniqueViolation
  | otherError
deriving Repr, DecidableEq

/-- Fault-injection points for the storage layer: each `true` / `some` makes the
    corresponding psycopg call raise.  `handle_message` catches any such
    exception in its `except Exception` block (line 229). -/
structure Faults where
  connectFail : Bool
  findFail : Bool
  checkFail : Bool
  updateFail : Bool
  insertFail : Option InsertError
deriving Repr, DecidableEq

/-- Fault-free storage. -/
def noFaults : Faults := ⟨false, false, false, false, none⟩

/-- Spec §4.4 terminal outcomes, plus `NoText` for the `not message.text`
    guard on line 133. -/
inductive Outcome
  | NoText
  | ChatNotAllowed
  | NoMatch
  | NameNotFound (suggestions : List String)
  | AlreadyAcknowledged
  | Recorded
  | InternalError
deriving Repr, DecidableEq

/-- Replies sent via `message.reply_text`, abstracted to their template. -/
inductive Reply
  | suggestNames (claimed : String) (suggestions : List String)
  | notFoundPlain (claimed : String)
  | alreadyAcked (db_name version : String)
  | recorded (db_name version : String)
  | errorGeneric
deriving Repr, DecidableEq

/-- Inbound Telegram message fields the pipeline reads. -/
structure Msg where
  text : String
  chat_id : Int
  message_id : Nat
  user_id : Nat
  username : Option String
  date : Int
deriving Repr, DecidableEq

/-- Result of one `handle_message` invocation: terminal outcome, resulting
    store, replies sent, and whether a DB connection was opened / closed. -/
structure HRes where
  outcome : Outcome
  state : DBState
  replies : List Reply
  connOpened : Bool
  connClosed : Bool
deriving Repr, DecidableEq

/-- `handle_message` (lines 130–233) under the `Faults` oracle.  `allowed` is
    `ALLOWED_CHAT_ID` (line 19; `0` when the variable is absent).  A raised
    storage exception jumps to the `except` branch (lines 229–233), which sends
    the generic error reply and does not close the connection. -/
def handle_message (allowed : Int) (f : Faults) (st : DBState) (msg : Msg) : HRes :=
  if msg.text = "" then ⟨.NoText, st, [], false, false⟩
  else if allowed ≠ 0 ∧ msg.chat_id ≠ allowed then ⟨.ChatNotAllowed, st, [], false, false⟩
  else
    match extractAck msg.text with
    | none => ⟨.NoMatch, st, [], false, false⟩
    | some (full_name, version) =>
      if f.connectFail then ⟨.InternalError, st, [.errorGeneric], false, false⟩
      else if f.findFail then ⟨.InternalError, st, [.errorGeneric], true, false⟩
      else
        match find_employee_by_name st full_name with
        | none =>
          let similar := find_similar_names st full_name
          if similar.isEmpty then
            ⟨.NameNotFound [], st, [.notFoundPlain full_name], true, true⟩
          else
            ⟨.NameNotFound (similar.map (·.full_name)), st,
              [.suggestNames full_name (similar.map (·.full_name))], true, true⟩
        | some employee =>
          if f.checkFail then ⟨.InternalError, st, [.errorGeneric], true, false⟩
          else if check_existing_acknowledgment st employee.id version then
            ⟨.AlreadyAcknowledged, st,
              [.alreadyAcked (employee.full_name.getD "") version], true, true⟩
          else if f.updateFail then ⟨.InternalError, st, [.errorGeneric], true, false⟩
          else
            let st1 := update_employee_telegram st employee.id (toString msg.user_id)
              (msg.username.getD "")
            match f.insertFail with
            | some _ => ⟨.InternalError, st1, [.errorGeneric], true, false⟩
            | none =>
              let st2 := insert_acknowledgment st1 employee.id version msg.text
                msg.chat_id msg.message_id msg.date
              ⟨.Recorded, st2, [.recorded (employee.full_name.getD "") version], true, true⟩

/-! ### Concrete fixtures for witnesses and counterexamples -/

/-- Roster with the single employee "John Doe". -/
def rosterJohn : DBState := ⟨[⟨1, some "John Doe", none, none⟩], []⟩

/-- Roster with the single employee "Jane Doe". -/
def rosterJane : DBState := ⟨[⟨1, some "Jane Doe", none, none⟩], []⟩

/-- Roster with "John Doe" and one employee whose stored name is present but
    empty (the SQL `IS NOT NULL` filter admits the latter row). -/
def rosterJohnEmpty : DBState :=
  ⟨[⟨1, some "John Doe", none, none⟩, ⟨2, some "", none, none⟩], []⟩

/-- A message with the typo name "Jhn Doe". -/
def msgTypo : Msg :=
  ⟨"I, Jhn Doe, acknowledge and agree to the HHG Employee Handbook v2026-01-20",
   5, 10, 42, some "jd", 1700⟩

/-- A well-formed acknowledgment message from "Jane Doe". -/
def msgJane : Msg :=
  ⟨"I, Jane Doe, acknowledge and agree to the HHG Employee Handbook v2026-01-20",
   5, 10, 42, some "jd", 1700⟩

/-- A message that does not fit the template. -/
def msgHello : Msg := ⟨"hello world", 5, 11, 42, some "jd", 1700⟩

/-- Insert raises the storage uniqueness-constraint violation. -/
def faultInsertUnique : Faults := ⟨false, false, false, false, some .uniqueViolation⟩

/-- Insert raises some other storage error. -/
def faultInsertOther : Faults := ⟨false, false, false, false, some .otherError⟩

/-- The employee-update statement raises. -/
def faultUpdate : Faults := ⟨false, false, false, true, none⟩

/-! ### General lemmas about the pipeline -/

/-- An accepted text is nonempty (`ACK_PATTERN` cannot match the empty string). -/
theorem extractAck_text_ne_empty {s : String} {p : String × String}
    (h : extractAck s = some p) : s ≠ "" := by
  intro he
  have h0 : extractAck "" = none := rfl
  rw [he, h0] at h
  exact Option.noConfusion h

/-- `ratAdd` is ordinary addition on `ℚ`. -/
theorem ratAdd_eq_add (a b : ℚ) : ratAdd a b = a + b := by
  have ha : (a.den : ℚ) ≠ 0 := by
    exact_mod_cast a.den_nz
  have hb : (b.den : ℚ) ≠ 0 := by
    exact_mod_cast b.den_nz
  rw [ratAdd, Rat.mkRat_eq_div]
  conv_rhs => rw [← Rat.num_div_den a, ← Rat.num_div_den b]
  push_cast
  field_simp

/-- Inversion of a `Recorded` run: extraction succeeded, the exact-name lookup
    found an employee, the duplicate check was negative, and the store gained
    exactly one ledger row for that employee and version. -/
theorem recorded_inv (allowed : Int) (f : Faults) (st : DBState) (msg : Msg)
    (h : (handle_message allowed f st msg).outcome = .Recorded) :
    ∃ n v e, extractAck msg.text = some (n, v) ∧
      find_employee_by_name st n = some e ∧
      check_existing_acknowledgment st e.id v = false ∧
      (handle_message allowed f st msg).state.acknowledgments
        = st.acknowledgments ++ [⟨e.id, v, msg.text, msg.chat_id, msg.message_id, msg.date⟩] := by
  revert h
  unfold handle_message
  split
  · exact fun h => absurd h (by simp)
  next hne =>
    split
    · exact fun h => absurd h (by simp)
    next hchat =>
      split
      · exact fun h => absurd h (by simp)
      next fn ver hex =>
        split
        · exact fun h => absurd h (by simp)
        next hcf =>
          split
          · exact fun h => absurd h (by simp)
          next hff =>
            split
            · intro h
              dsimp only at h
              split at h <;> exact absurd h (by simp)
            next e hfind =>
              split
              · exact fun h => absurd h (by simp)
              next hkf =>
                split
                · exact fun h => absurd h (by simp)
                next hchk =>
                  split
                  · exact fun h => absurd h (by simp)
                  next huf =>
                    split
                    · exact fun h => absurd h (by simp)
                    next hins =>
                      intro _
                      exact ⟨fn, ver, e, hex, hfind, by simpa using hchk,
                        by simp [insert_acknowledgment, update_employee_telegram]⟩

/-- On every run that is not `Recorded`, the acknowledgments table is
    unchanged: the insert on line 218 is the only statement that writes it. -/
theorem acks_unchanged_of_not_recorded (allowed : Int) (f : Faults) (st : DBState) (msg : Msg)
    (h : (handle_message allowed f st msg).outcome ≠ .Recorded) :
    (handle_message allowed f st msg).state.acknowledgments = st.acknowledgments := by
  revert h
  unfold handle_message
  split
  · exact fun _ => rfl
  next hne =>
    split
    · exact fun _ => rfl
    next hchat =>
      split
      · exact fun _ => rfl
      next fn ver hex =>
        split
        · exact fun _ => rfl
        next hcf =>
          split
          · exact fun _ => rfl
          next hff =>
            split
            · intro _
              dsimp only
              split <;> rfl
            next e hfind =>
              split
              · exact fun _ => rfl
              next hkf =>
                split
                · exact fun _ => rfl
                next hchk =>
                  split
                  · exact fun _ => rfl
                  next huf =>
                    split
                    · exact fun _ => rfl
                    next hins =>
                      exact fun h => absurd rfl h

/-- Forward computation of a duplicate run: when extraction, the chat gate and
    the exact lookup succeed, no storage fault fires before the duplicate check,
    and the check is positive, the run replies with the prior-acknowledgment
    confirmation, performs no write, and closes the connection. -/
theorem already_ack_run (allowed : Int) (f : Faults) (st : DBState) (msg : Msg)
    (n v : String) (e : Employee)
    (hchat : ¬(allowed ≠ 0 ∧ msg.chat_id ≠ allowed))
    (hex : extractAck msg.text = some (n, v))
    (hcf : f.connectFail = false) (hff : f.findFail = false) (hkf : f.checkFail = false)
    (hfind : find_employee_by_name st n = some e)
    (hchk : check_existing_acknowledgment st e.id v = true) :
    handle_message allowed f st msg =
      ⟨.AlreadyAcknowledged, st, [.alreadyAcked (e.full_name.getD "") v], true, true⟩ := by
  have hne : msg.text ≠ "" := extractAck_text_ne_empty hex
  simp [handle_message, hne, hchat, hex, hcf, hff, hkf, hfind, hchk]

/-! ### Claim theorems -/

/-- C1: for two sequentially processed messages that resolve to the same
    employee and carry the same handbook version, if the first run yields
    `Recorded` then the second run yields `AlreadyAcknowledged`: the
    prior-acknowledgment confirmation reply is sent, no new write occurs (the
    store is unchanged), and the acknowledgments ledger row count is unchanged. -/
theorem C1_second_send_already_acknowledged
    (allowed : Int) (st : DBState) (m1 m2 : Msg) (n1 v1 n2 v2 : String) (e1 e2 : Employee)
    (hex1 : extractAck m1.text = some (n1, v1))
    (hex2 : extractAck m2.text = some (n2, v2))
    (hv : v2 = v1)
    (hchat2 : ¬(allowed ≠ 0 ∧ m2.chat_id ≠ allowed))
    (hrec : (handle_message allowed noFaults st m1).outcome = .Recorded)
    (hfind1 : find_employee_by_name st n1 = some e1)
    (hfind2 : find_employee_by_name (handle_message allowed noFaults st m1).state n2 = some e2)
    (hid : e2.id = e1.id) :
    (handle_message allowed noFaults (handle_message allowed noFaults st m1).state m2).outcome
        = .AlreadyAcknowledged ∧
    (handle_message allowed noFaults (handle_message allowed noFaults st m1).state m2).state
        = (handle_message allowed noFaults st m1).state ∧
    List.length (handle_message allowed noFaults
          (handle_message allowed noFaults st m1).state m2).state.acknowledgments
        = List.length (handle_message allowed noFaults st m1).state.acknowledgments ∧
    (handle_message allowed noFaults (handle_message allowed noFaults st m1).state m2).replies
        = [.alreadyAcked (e2.full_name.getD "") v2] := by
  obtain ⟨n, v, e, hex1', hfind1', hchk1, hacks⟩ := recorded_inv allowed noFaults st m1 hrec
  rw [hex1] at hex1'
  have hnv : n1 = n ∧ v1 = v := by simpa using hex1'
  obtain ⟨hn, hvv⟩ := hnv
  subst hn hvv
  rw [hfind1] at hfind1'
  have he : e1 = e := by simpa using hfind1'
  subst he
  have hchk2 : check_existing_acknowledgment
      (handle_message allowed noFaults st m1).state e2.id v2 = true := by
    unfold check_existing_acknowledgment
    rw [hacks]
    simp [hid, hv]
  have hrun2 := already_ack_run allowed noFaults
    (handle_message allowed noFaults st m1).state m2 n2 v2 e2 hchat2 hex2 rfl rfl rfl
    hfind2 hchk2
  rw [hrun2]
  exact ⟨rfl, rfl, rfl, rfl⟩

/-- C1 witness: the same well-formed text sent twice on a roster that contains
    "Jane Doe"; the first send records, the second confirms the duplicate. -/
theorem C1_second_send_already_acknowledged_witness :
    (handle_message 0 noFaults (handle_message 0 noFaults rosterJane msgJane).state
        msgJane).outcome = .AlreadyAcknowledged ∧
    (handle_message 0 noFaults (handle_message 0 noFaults rosterJane msgJane).state
        msgJane).state = (handle_message 0 noFaults rosterJane msgJane).state ∧
    (handle_message 0 noFaults (handle_message 0 noFaults rosterJane msgJane).state
        msgJane).state.acknowledgments.length
        = (handle_message 0 noFaults rosterJane msgJane).state.acknowledgments.length ∧
    (handle_message 0 noFaults (handle_message 0 noFaults rosterJane msgJane).state
        msgJane).replies = [.alreadyAcked "Jane Doe" "v2026-01-20"] :=
  C1_second_send_already_acknowledged 0 rosterJane msgJane msgJane
    "Jane Doe" "v2026-01-20" "Jane Doe" "v2026-01-20"
    ⟨1, some "Jane Doe", none, none⟩ ⟨1, some "Jane Doe", some "42", some "jd"⟩
    (by decide) (by decide) rfl (by decide) (by decide) (by decide) (by decide) rfl

/-- C2 counterexample: with the roster containing "Jane Doe", no prior
    acknowledgment, and the insert raising the storage uniqueness-constraint
    violation, the pipeline produces `InternalError`, not `AlreadyAcknowledged`
    as the claim states. -/
theorem C2_unique_violation_counterexample :
    (handle_message 0 faultInsertUnique rosterJane msgJane).outcome = .InternalError ∧
    (handle_message 0 faultInsertUnique rosterJane msgJane).outcome ≠ .AlreadyAcknowledged := by
  decide

/-- C2 amended: when the insert fails with the storage-layer
    uniqueness-constraint violation (after a clean path up to it), the pipeline
    produces the `InternalError` outcome with the generic error reply — the
    violation is not converted to `AlreadyAcknowledged` (the `except` block on
    lines 229–233 treats every exception alike). -/
theorem C2_unique_violation_internal_error
    (allowed : Int) (st : DBState) (msg : Msg) (n v : String) (e : Employee)
    (hchat : ¬(allowed ≠ 0 ∧ msg.chat_id ≠ allowed))
    (hex : extractAck msg.text = some (n, v))
    (hfind : find_employee_by_name st n = some e)
    (hchk : check_existing_acknowledgment st e.id v = false) :
    (handle_message allowed faultInsertUnique st msg).outcome = .InternalError ∧
    (handle_message allowed faultInsertUnique st msg).replies = [.errorGeneric] := by
  have hne : msg.text ≠ "" := extractAck_text_ne_empty hex
  simp [handle_message, hne, hchat, hex, hfind, hchk, faultInsertUnique]

/-- C2 witness: the amended behavior at the concrete scenario. -/
theorem C2_unique_violation_internal_error_witness :
    (handle_message 0 faultInsertUnique rosterJane msgJane).outcome = .InternalError ∧
    (handle_message 0 faultInsertUnique rosterJane msgJane).replies = [.errorGeneric] :=
  C2_unique_violation_internal_error 0 rosterJane msgJane "Jane Doe" "v2026-01-20"
    ⟨1, some "Jane Doe", none, none⟩ (by decide) (by decide) (by decide) (by decide)

/-- C3 counterexample: a run that ends in `InternalError` (insert raises after
    the update committed) leaves the employee's channel-binding update in the
    store — the persistent store is not unchanged. -/
theorem C3_counterexample_partial_state :
    (handle_message 0 faultInsertOther rosterJane msgJane).outcome = .InternalError ∧
    (handle_message 0 faultInsertOther rosterJane msgJane).state.employees
      ≠ rosterJane.employees := by
  decide

/-- C3 amended: every run ends in exactly one terminal outcome, and a run that
    ends in `InternalError` leaves the acknowledgments ledger unchanged; but the
    employee's channel-binding update may survive such a run (each write commits
    separately, so partial state is possible on the update side). -/
theorem C3_internal_error_ledger_unchanged
    (allowed : Int) (f : Faults) (st : DBState) (msg : Msg)
    (h : (handle_message allowed f st msg).outcome = .InternalError) :
    (handle_message allowed f st msg).state.acknowledgments = st.acknowledgments :=
  acks_unchanged_of_not_recorded allowed f st msg (by rw [h]; simp)

/-- C3 witness: the amended ledger-unchanged property at the concrete failing
    insert. -/
theorem C3_internal_error_ledger_unchanged_witness :
    (handle_message 0 faultInsertOther rosterJane msgJane).state.acknowledgments
      = rosterJane.acknowledgments :=
  C3_internal_error_ledger_unchanged 0 faultInsertOther rosterJane msgJane (by decide)

/-- C4: contrary to the claim, the error exit path does not release the
    acquired database connection: when the update statement raises, the
    `except` block (lines 229–233) replies and returns without `conn.close()`,
    so the connection acquired on line 177 leaks. -/
theorem C4_error_path_leaks_connection :
    (handle_message 0 faultUpdate rosterJane msgJane).outcome = .InternalError ∧
    (handle_message 0 faultUpdate rosterJane msgJane).connOpened = true ∧
    (handle_message 0 faultUpdate rosterJane msgJane).connClosed = false := by
  decide

/-- The scoring loop of `find_similar_names` (a `filterMap` over the non-NULL
    rows) equals the claim-style presentation: score the present-name rows,
    then keep the candidates reaching the threshold. -/
theorem similar_loop_eq_filter (il : String) (ps : List String) (l : List Employee) :
    (l.filterMap fun e =>
      match e.full_name with
      | none => none
      | some nm =>
        if scoreOf il ps nm ≥ mkRat 3 5 then
          some (⟨e.id, nm, scoreOf il ps nm⟩ : Candidate) else none)
    = ((l.filter fun e => e.full_name.isSome).map fun e =>
        (⟨e.id, e.full_name.getD "", scoreOf il ps (e.full_name.getD "")⟩ : Candidate)).filter
        fun c => c.score ≥ mkRat 3 5 := by
  induction l with
  | nil => rfl
  | cons e t ih =>
    cases hfn : e.full_name with
    | none =>
      simp [List.filterMap_cons, List.filter_cons, hfn, ih]
    | some nm =>
      by_cases hc : mkRat 3 5 ≤ scoreOf il ps nm <;>
        simp [List.filterMap_cons, List.filter_cons, hfn, hc, ih]

/-- A fold whose step preserves the second component leaves it unchanged. -/
theorem foldl_snd_invar {α β : Type} (g : (α × β) → Nat → (α × β))
    (hg : ∀ p i, (g p i).2 = p.2) :
    ∀ (L : List Nat) (p : α × β), (L.foldl g p).2 = p.2 := by
  intro L
  induction L with
  | nil => intro p; rfl
  | cons i t ih => intro p; rw [List.foldl_cons, ih, hg]

/-- With an empty `b` there are no index hits, so the DP pass of
    `find_longest_match` keeps the initial best block `(alo, blo, 0)`. -/
theorem flmDP_nil (a : List Char) (alo ahi blo bhi : Nat) :
    flmDP a [] alo ahi blo bhi = ⟨alo, blo, 0⟩ := by
  unfold flmDP
  dsimp only
  refine foldl_snd_invar _ ?_ _ _
  exact fun p i => rfl

/-- The left extension loop is a no-op on a block already starting at `alo`. -/
theorem extLeft_at_alo (a b : List Char) (alo blo fuel : Nat) (st : FLM)
    (h : st.besti = alo) : extLeft a b alo blo fuel st = st := by
  cases fuel with
  | zero => rfl
  | succ n => simp [extLeft, h]

/-- The right extension loop is a no-op when the `b` window is empty. -/
theorem extRight_bhi_zero (a b : List Char) (ahi fuel : Nat) (st : FLM) :
    extRight a b ahi 0 fuel st = st := by
  cases fuel with
  | zero => rfl
  | succ n => simp [extRight]

/-- Against an empty `b`, `find_longest_match` returns the empty block. -/
theorem flm_nil (a : List Char) (alo ahi blo : Nat) :
    find_longest_match a [] alo ahi blo 0 = ⟨alo, blo, 0⟩ := by
  unfold find_longest_match
  dsimp only
  rw [flmDP_nil, extLeft_at_alo a [] alo blo _ _ rfl]
  exact extRight_bhi_zero _ _ _ _ _

/-- Against an empty `b`, the recursive block decomposition matches nothing. -/
theorem matchTotal_nil (a : List Char) (fuel alo ahi blo : Nat) :
    matchTotal a [] (fuel + 1) alo ahi blo 0 = 0 := by
  rw [matchTotal, flm_nil]
  rfl

/-- difflib ratio of a non-empty string against the empty string is `0`. -/
theorem ratio_empty_right (s : String) (h : s ≠ "") : ratio s "" = 0 := by
  have hlen : s.toList.length ≠ 0 := by
    intro h0
    apply h
    apply String.ext
    rw [show s.data = s.toList from rfl, List.length_eq_zero.mp h0]
  unfold ratio
  dsimp only
  rw [show ("" : String).toList = ([] : List Char) from rfl]
  simp only [List.length_nil, Nat.add_zero]
  rw [if_neg hlen, matchTotal_nil]
  simp [Rat.mkRat_eq_div]

/-- A present-but-empty stored name scores `0` against any non-empty lowered
    input: the full-string ratio is `0` and the token list of `""` is empty,
    so no bonus fires. -/
theorem scoreOf_empty_name (il : String) (ps : List String) (h : il ≠ "") :
    scoreOf il ps "" = 0 := by
  unfold scoreOf
  dsimp only
  rw [show pyLower "" = "" from rfl, ratio_empty_right il h,
    show pySplit "" = ([] : List String) from rfl, ratAdd_eq_add]
  simp

/-- Under the side condition that a present-but-empty stored name forces the
    lowered input to be non-empty, the claim's non-empty-name universe yields
    the same thresholded candidates as the code's non-NULL universe: the empty
    name scores `0 < 0.6` and is filtered out either way. -/
theorem similar_filter_claim_eq (il : String) (ps : List String) (l : List Employee)
    (H : ∀ e ∈ l, e.full_name = some "" → il ≠ "") :
    (((l.filter fun e => e.full_name.isSome).map fun e =>
        (⟨e.id, e.full_name.getD "", scoreOf il ps (e.full_name.getD "")⟩ : Candidate)).filter
        fun c => c.score ≥ mkRat 3 5)
    = (((l.filter fun e => e.full_name.isSome && e.full_name != some "").map fun e =>
        (⟨e.id, e.full_name.getD "", scoreOf il ps (e.full_name.getD "")⟩ : Candidate)).filter
        fun c => c.score ≥ mkRat 3 5) := by
  induction l with
  | nil => rfl
  | cons e t ih =>
    have Ht : ∀ x ∈ t, x.full_name = some "" → il ≠ "" :=
      fun x hx => H x (List.mem_cons_of_mem e hx)
    cases hfn : e.full_name with
    | none => simp [List.filter_cons, hfn, ih Ht]
    | some nm =>
      by_cases hnm : nm = ""
      · subst hnm
        have hil : il ≠ "" := H e (List.mem_cons_self e t) hfn
        have hs : scoreOf il ps "" = 0 := scoreOf_empty_name il ps hil
        have h35 : ¬ ((0 : ℚ) ≥ mkRat 3 5) := by decide
        simp [List.filter_cons, hfn, hs, h35, ih Ht]
      · have hbne : (some nm != some "") = true := by simp [hnm]
        simp [List.filter_cons, hfn, hbne, ih Ht]

/-- C5: when exact name lookup fails, the resolver returns exactly the claim's
    characterization: score every employee with a non-empty stored name as the
    full-string ratio plus the fixed 0.15 bonus when some token pair has ratio
    strictly above 0.8, keep the candidates scoring at least 0.6, stably sorted
    in descending score order, truncated to at most 3.  (The code's SQL
    universe is `full_name IS NOT NULL`; under the failed-exact-lookup guard a
    present-but-empty stored name scores 0 and never reaches the threshold, so
    the two universes give identical results.) -/
theorem C5_resolver_characterization (st : DBState) (full_name : String)
    (h : find_employee_by_name st full_name = none) :
    find_similar_names st full_name = find_similar_names_claim st full_name := by
  have H : ∀ e ∈ st.employees, e.full_name = some "" → pyLower full_name ≠ "" := by
    intro e he hemp hlow
    apply List.find?_eq_none.mp h e he
    rw [hemp]
    show decide (pyLower "" = pyLower full_name) = true
    rw [hlow]
    decide
  unfold find_similar_names find_similar_names_claim
  dsimp only
  rw [similar_loop_eq_filter,
    similar_filter_claim_eq (pyLower full_name) (pySplit (pyLower full_name)) st.employees H]

/-- C5 witness: on the roster holding "John Doe" and a present-but-empty name,
    exact lookup of "Jhn Doe" fails and the resolver agrees with the claim's
    characterization. -/
theorem C5_resolver_characterization_witness :
    find_employee_by_name rosterJohnEmpty "Jhn Doe" = none ∧
    find_similar_names rosterJohnEmpty "Jhn Doe"
      = find_similar_names_claim rosterJohnEmpty "Jhn Doe" :=
  ⟨by decide, C5_resolver_characterization rosterJohnEmpty "Jhn Doe" (by decide)⟩

/-- C6: resolving the claimed name "Jhn Doe" against a roster containing only
    "John Doe" yields `NameNotFound` with exactly the one suggestion
    "John Doe" (and no write). -/
theorem C6_typo_yields_single_suggestion :
    handle_message 0 noFaults rosterJohn msgTypo =
      ⟨.NameNotFound ["John Doe"], rosterJohn,
        [.suggestNames "Jhn Doe" ["John Doe"]], true, true⟩ := by
  decide

/-- C7: with a nonzero configured allowed chat, a message from a different chat
    produces no reply and no write; with the zero (absent) configuration no
    message is rejected for chat scope. -/
theorem C7_chat_scope_restriction (allowed : Int) (f : Faults) (st : DBState) (msg : Msg) :
    (allowed ≠ 0 → msg.chat_id ≠ allowed →
      (handle_message allowed f st msg).replies = [] ∧
      (handle_message allowed f st msg).state = st ∧
      (handle_message allowed f st msg).connOpened = false) ∧
    (allowed = 0 → (handle_message allowed f st msg).outcome ≠ .ChatNotAllowed) := by
  constructor
  · intro ha hc
    unfold handle_message
    split
    · exact ⟨rfl, rfl, rfl⟩
    · rw [if_pos ⟨ha, hc⟩]
      exact ⟨rfl, rfl, rfl⟩
  · intro ha
    unfold handle_message
    split
    · simp
    next hne =>
      split
      · next hcond => exact absurd ha hcond.1
      next hch =>
        split
        · simp
        next fn ver hex =>
          split
          · simp
          next hcf =>
            split
            · simp
            next hff =>
              split
              · dsimp only
                split <;> simp
              next e hfind =>
                split
                · simp
                next hkf =>
                  split
                  · simp
                  next hchk =>
                    split
                    · simp
                    next huf =>
                      split
                      · simp
                      · simp

/-- C7 witness: chat 5 against configured chat 7 is dropped silently; with the
    configuration absent (0) the same message is not chat-rejected. -/
theorem C7_chat_scope_restriction_witness :
    ((handle_message 7 noFaults rosterJane msgJane).replies = [] ∧
      (handle_message 7 noFaults rosterJane msgJane).state = rosterJane ∧
      (handle_message 7 noFaults rosterJane msgJane).connOpened = false) ∧
    (handle_message 0 noFaults rosterJane msgJane).outcome ≠ .ChatNotAllowed :=
  ⟨(C7_chat_scope_restriction 7 noFaults rosterJane msgJane).1 (by decide) (by decide),
   (C7_chat_scope_restriction 0 noFaults rosterJane msgJane).2 rfl⟩

/-- C8: a message whose text the acknowledgment pattern does not match produces
    no reply, no write, and no connection; when the guards before the pattern
    check pass, the run's outcome is `NoMatch`. -/
theorem C8_no_match_is_silent (allowed : Int) (f : Faults) (st : DBState) (msg : Msg)
    (h : extractAck msg.text = none) :
    (handle_message allowed f st msg).state = st ∧
    (handle_message allowed f st msg).replies = [] ∧
    (handle_message allowed f st msg).connOpened = false ∧
    (msg.text ≠ "" → ¬(allowed ≠ 0 ∧ msg.chat_id ≠ allowed) →
      (handle_message allowed f st msg).outcome = .NoMatch) := by
  unfold handle_message
  split
  · next he => exact ⟨rfl, rfl, rfl, fun hne _ => absurd he hne⟩
  · split
    · next hch => exact ⟨rfl, rfl, rfl, fun _ hc => absurd hch hc⟩
    · rw [h]
      exact ⟨rfl, rfl, rfl, fun _ _ => rfl⟩

/-- C8 witness: "hello world" is ignored with no side effects. -/
theorem C8_no_match_is_silent_witness :
    (handle_message 0 noFaults rosterJane msgHello).state = rosterJane ∧
    (handle_message 0 noFaults rosterJane msgHello).replies = [] ∧
    (handle_message 0 noFaults rosterJane msgHello).connOpened = false ∧
    (handle_message 0 noFaults rosterJane msgHello).outcome = .NoMatch := by
  have h := C8_no_match_is_silent 0 noFaults rosterJane msgHello (by decide)
  exact ⟨h.1, h.2.1, h.2.2.1, h.2.2.2 (by decide) (by decide)⟩

/-! ### List helpers for the extractor metatheory -/

theorem dropWhile_head_false {p : Char → Bool} {l r : List Char} {c : Char}
    (h : l.dropWhile p = c :: r) : p c = false := by
  induction l with
  | nil => simp [List.dropWhile] at h
  | cons a t ih =>
    by_cases ha : p a
    · rw [List.dropWhile_cons_of_pos ha] at h
      exact ih h
    · rw [List.dropWhile_cons_of_neg ha] at h
      cases h
      exact Bool.of_not_eq_true ha

theorem dropWhile_eq_self_of {p : Char → Bool} {l : List Char}
    (h : l.all (fun c => !p c) = true) : l.dropWhile p = l := by
  cases l with
  | nil => rfl
  | cons a t =>
    simp only [List.all_cons, Bool.and_eq_true, Bool.not_eq_true'] at h
    exact List.dropWhile_cons_of_neg (by simp [h.1])

theorem dropWhile_append_keep {p : Char → Bool} {c : Char} (hc : p c = false)
    (x y : List Char) : (x ++ c :: y).dropWhile p = x.dropWhile p ++ c :: y := by
  induction x with
  | nil =>
    simp only [List.nil_append, List.dropWhile_nil]
    exact List.dropWhile_cons_of_neg (by simp [hc])
  | cons a t ih =>
    by_cases ha : p a
    · simp [List.dropWhile_cons_of_pos ha, ih]
    · simp [List.dropWhile_cons_of_neg ha]

theorem dropWhile_append_of_ne_nil {p : Char → Bool} {x : List Char}
    (h : x.dropWhile p ≠ []) (y : List Char) :
    (x ++ y).dropWhile p = x.dropWhile p ++ y := by
  induction x with
  | nil => exact absurd rfl h
  | cons a t ih =>
    by_cases ha : p a
    · rw [List.dropWhile_cons_of_pos ha] at h ⊢
      simpa [List.dropWhile_cons_of_pos ha] using ih h
    · simp [List.dropWhile_cons_of_neg ha]

theorem takeWhile_all {p : Char → Bool} (l : List Char) :
    (l.takeWhile p).all p = true := by
  induction l with
  | nil => rfl
  | cons a t ih =>
    by_cases ha : p a
    · simp [List.takeWhile_cons_of_pos ha, ha, ih]
    · simp [List.takeWhile_cons_of_neg ha]

/-- Decomposition of a list around its stripped core: all-space lead and trail. -/
theorem stripList_decomp (l : List Char) :
    ∃ lead trail, l = lead ++ stripList l ++ trail ∧
      lead.all isPySpace = true ∧ trail.all isPySpace = true := by
  refine ⟨l.takeWhile isPySpace,
    ((l.dropWhile isPySpace).reverse.takeWhile isPySpace).reverse, ?_, ?_, ?_⟩
  · conv_lhs => rw [← List.takeWhile_append_dropWhile (p := isPySpace) (l := l)]
    rw [List.append_assoc]
    congr 1
    conv_lhs => rw [← List.reverse_reverse (l.dropWhile isPySpace)]
    conv_lhs =>
      rw [← List.takeWhile_append_dropWhile (p := isPySpace)
        (l := (l.dropWhile isPySpace).reverse)]
    rw [List.reverse_append, stripList]
  · exact takeWhile_all l
  · rw [List.all_reverse]
    exact takeWhile_all _

/-- Dropping trailing whitespace (through the reverse) leaves a prefix; the
    removed part is all whitespace. -/
theorem dropTrailing_prefix (p : Char → Bool) (m : List Char) :
    ∃ tr, m = (m.reverse.dropWhile p).reverse ++ tr ∧ tr.all p = true := by
  refine ⟨(m.reverse.takeWhile p).reverse, ?_, by rw [List.all_reverse]; exact takeWhile_all _⟩
  conv_lhs =>
    rw [← List.reverse_reverse m,
      ← List.takeWhile_append_dropWhile (p := p) (l := m.reverse)]
  rw [List.reverse_append]

theorem stripList_head_false {l r : List Char} {c : Char}
    (h : stripList l = c :: r) : isPySpace c = false := by
  obtain ⟨tr, hm, _⟩ := dropTrailing_prefix isPySpace (l.dropWhile isPySpace)
  unfold stripList at h
  rw [h] at hm
  exact dropWhile_head_false (p := isPySpace) (by simpa using hm)

theorem stripList_eq_self_of {l : List Char}
    (h : l.all (fun c => !isPySpace c) = true) : stripList l = l := by
  unfold stripList
  rw [dropWhile_eq_self_of h, dropWhile_eq_self_of (by rwa [List.all_reverse]),
    List.reverse_reverse]

theorem stripList_all {q : Char → Bool} {l : List Char}
    (h : l.all q = true) : (stripList l).all q = true := by
  obtain ⟨lead, trail, hl, _, _⟩ := stripList_decomp l
  rw [hl] at h
  simp only [List.all_append, Bool.and_eq_true] at h
  exact h.1.2

theorem stripList_idem (l : List Char) : stripList (stripList l) = stripList l := by
  rcases hs : stripList l with _ | ⟨c, r⟩
  · rfl
  have hc : isPySpace c = false := stripList_head_false hs
  have hrev : (stripList l).reverse = (l.dropWhile isPySpace).reverse.dropWhile isPySpace := by
    unfold stripList
    rw [List.reverse_reverse]
  unfold stripList
  rw [List.dropWhile_cons_of_neg (by simp [hc])]
  rcases hr : (c :: r).reverse with _ | ⟨c', r'⟩
  · exact absurd hr (by simp)
  have hc' : isPySpace c' = false := by
    refine dropWhile_head_false (p := isPySpace)
      (l := (l.dropWhile isPySpace).reverse) (r := r') ?_
    rw [← hrev, hs, hr]
  have hdw : List.dropWhile isPySpace (c' :: r') = c' :: r' :=
    List.dropWhile_cons_of_neg (by simp [hc'])
  rw [hdw, ← hr, List.reverse_reverse]

theorem findSome?_split {α β : Type} {l : List α} {f : α → Option β} {b : β}
    (h : l.findSome? f = some b) :
    ∃ l₁ a l₂, l = l₁ ++ a :: l₂ ∧ f a = some b ∧ ∀ x ∈ l₁, f x = none := by
  induction l with
  | nil => simp [List.findSome?] at h
  | cons a t ih =>
    cases hfa : f a with
    | some c =>
      refine ⟨[], a, t, rfl, ?_, by simp⟩
      rw [hfa]
      simpa [List.findSome?, hfa] using h
    | none =>
      rw [List.findSome?_cons, hfa] at h
      obtain ⟨l₁, x, l₂, hl, hx, hnone⟩ := ih h
      refine ⟨a :: l₁, x, l₂, by rw [hl]; rfl, hx, ?_⟩
      intro y hy
      rcases List.mem_cons.mp hy with rfl | hmem
      · exact hfa
      · exact hnone y hmem

theorem findSome?_of_prefix {α β : Type} {f : α → Option β} {l₁ : List α} {a : α} {b : β}
    (h₁ : ∀ x ∈ l₁, f x = none) (h : f a = some b) (l₂ : List α) :
    (l₁ ++ a :: l₂).findSome? f = some b := by
  induction l₁ with
  | nil => simp [List.findSome?_cons, h]
  | cons x t ih =>
    have hx : f x = none := h₁ x (by simp)
    simp only [List.cons_append, List.findSome?_cons, hx]
    exact ih fun y hy => h₁ y (by simp [hy])

theorem findSome?_isSome_of_mem {α β : Type} {f : α → Option β} {l : List α} {a : α}
    (ha : a ∈ l) (h : (f a).isSome = true) : (l.findSome? f).isSome = true := by
  induction l with
  | nil => simp at ha
  | cons x t ih =>
    cases hfx : f x with
    | some c => simp [List.findSome?_cons, hfx]
    | none =>
      rw [List.findSome?_cons, hfx]
      rcases List.mem_cons.mp ha with rfl | hmem
      · rw [hfx] at h
        simp at h
      · exact ih hmem

theorem range'_split_inv : ∀ {l₁ : List Nat} {s n : Nat} {l₂ : List Nat} {a : Nat},
    List.range' s n = l₁ ++ a :: l₂ → l₁ = List.range' s l₁.length ∧ a = s + l₁.length := by
  intro l₁
  induction l₁ with
  | nil =>
    intro s n l₂ a h
    cases n with
    | zero => simp [List.range'] at h
    | succ m =>
      rw [List.range'] at h
      injection h with h1 _
      subst h1
      exact ⟨rfl, by simp⟩
  | cons x t ih =>
    intro s n l₂ a h
    cases n with
    | zero => simp [List.range'] at h
    | succ m =>
      rw [List.range'] at h
      injection h with h1 h2
      obtain ⟨ht, ha⟩ := ih h2
      subst h1
      refine ⟨?_, by simp [ha]; omega⟩
      conv_lhs => rw [ht]
      simp [List.range', List.length_cons]

theorem range'_split_at : ∀ (i s n : Nat), i ≤ n →
    List.range' s n = List.range' s i ++ List.range' (s + i) (n - i) := by
  intro i
  induction i with
  | zero => intro s n _; simp
  | succ j ih =>
    intro s n h
    cases n with
    | zero => omega
    | succ m =>
      have h2 : m + 1 - (j + 1) = m - j := by omega
      have h1 : s + (j + 1) = (s + 1) + j := by omega
      simp only [List.range', h1, h2, List.cons_append, List.cons.injEq, true_and]
      exact ih (s + 1) m (by omega)

/-! ### Extractor engine lemmas -/

theorem takeWhile_eq_self_of_all {p : Char → Bool} {l : List Char}
    (h : l.all p = true) : l.takeWhile p = l := by
  induction l with
  | nil => rfl
  | cons a t ih =>
    simp only [List.all_cons, Bool.and_eq_true] at h
    rw [List.takeWhile_cons_of_pos h.1, ih h.2]

theorem dropWhile_eq_nil_of_all {p : Char → Bool} {l : List Char}
    (h : l.all p = true) : l.dropWhile p = [] := by
  induction l with
  | nil => rfl
  | cons a t ih =>
    simp only [List.all_cons, Bool.and_eq_true] at h
    rw [List.dropWhile_cons_of_pos h.1]
    exact ih h.2

theorem chompComma_comma (x : List Char) : chompComma (',' :: x) = x := rfl

theorem chompComma_cons_ne {a : Char} (ha : a ≠ ',') (x : List Char) :
    chompComma (a :: x) = a :: x := by
  unfold chompComma
  split
  · next heq =>
    injection heq with h1 _
    exact absurd h1 ha
  · rfl

theorem vGroup_inv {s v rem : List Char}
    (h : vGroup s = some (v, rem)) :
    ∃ c d ds, v = c :: d :: ds ∧ lowEq 'v' c = true ∧ isVClass d = true ∧
      ds.all isVClass = true := by
  cases s with
  | nil => simp [vGroup] at h
  | cons c r =>
    by_cases hc : lowEq 'v' c
    · cases r with
      | nil => simp [vGroup, hc] at h
      | cons d r' =>
        by_cases hd : isVClass d
        · refine ⟨c, d, r'.takeWhile isVClass, ?_, hc, hd, takeWhile_all r'⟩
          simp only [vGroup, hc, if_true, hd, Option.some.injEq, Prod.mk.injEq] at h
          exact h.1.symm
        · simp [vGroup, hc, hd] at h
    · simp [vGroup, hc] at h

theorem vGroup_exact {c d : Char} {ds : List Char}
    (hc : lowEq 'v' c = true) (hd : isVClass d = true) (hds : ds.all isVClass = true) :
    vGroup (c :: d :: ds) = some (c :: d :: ds, []) := by
  simp only [vGroup, hc, if_true, hd]
  rw [takeWhile_eq_self_of_all hds, dropWhile_eq_nil_of_all hds]

theorem vGroup_isSome_append {c d : Char} (ds rest : List Char)
    (hc : lowEq 'v' c = true) (hd : isVClass d = true) :
    (vGroup (c :: d :: (ds ++ rest))).isSome = true := by
  simp [vGroup, hc, hd]

theorem orElse_isSome {α : Type} {a : Option α} {f : Unit → Option α}
    (h : a.isSome = true) : (a.orElse f).isSome = true := by
  cases a with
  | none => simp at h
  | some x => rfl

theorem searchAck_inv {l : List Char} {p : List Char × List Char}
    (h : searchAck l = some p) : ∃ s, matchAck s = some p := by
  induction l with
  | nil => simp [searchAck] at h
  | cons c r ih =>
    rw [searchAck] at h
    cases hm : matchAck (c :: r) with
    | some q =>
      rw [hm] at h
      exact ⟨c :: r, by rw [hm]; exact h⟩
    | none =>
      rw [hm] at h
      exact ih h

theorem searchAck_cons_pos {c : Char} {r : List Char} {p : List Char × List Char}
    (h : matchAck (c :: r) = some p) : searchAck (c :: r) = some p := by
  rw [searchAck, h]
  rfl

theorem searchAck_isSome_append (l₁ l₂ : List Char)
    (h : (matchAck l₂).isSome = true) : (searchAck (l₁ ++ l₂)).isSome = true := by
  induction l₁ with
  | nil =>
    cases l₂ with
    | nil => simp [matchAck] at h
    | cons c r =>
      simp only [List.nil_append]
      rw [searchAck]
      exact orElse_isSome h
  | cons a t ih =>
    simp only [List.cons_append]
    rw [searchAck]
    cases hm : matchAck (a :: (t ++ l₂)) with
    | some q => rfl
    | none =>
      rw [show (none : Option (List Char × List Char)).orElse
        (fun _ => searchAck (t ++ l₂)) = searchAck (t ++ l₂) from rfl]
      exact ih

/-! ### Localization of the tail match at a comma boundary

The fixed tail `,?\s+acknowledge…Handbook\s+(v[\d\-]+)` can consume a comma
only through its leading `,?`: every later element (whitespace gaps, letter
words, and the digit/hyphen class) rejects a comma.  Hence a successful tail
match on `α ++ ',' :: γ` that starts inside `α` stays inside `α`, and can be
replayed against any continuation `β` in place of `',' :: γ`. -/

theorem matchLit_split : ∀ {w : List Char}, w.all (fun c => !lowEq c ',') = true →
    ∀ {α γ s₁ : List Char}, matchLit w (α ++ ',' :: γ) = some s₁ →
      ∃ α₁, s₁ = α₁ ++ ',' :: γ ∧ ∀ β, matchLit w (α ++ β) = some (α₁ ++ β) := by
  intro w
  induction w with
  | nil =>
    intro _ α γ s₁ h
    rw [matchLit] at h
    injection h with h'
    exact ⟨α, h'.symm, fun β => rfl⟩
  | cons c w' ih =>
    intro hw α γ s₁ h
    simp only [List.all_cons, Bool.and_eq_true, Bool.not_eq_true'] at hw
    cases α with
    | nil =>
      rw [List.nil_append, matchLit, if_neg (by simp [hw.1])] at h
      cases h
    | cons a α₂ =>
      rw [List.cons_append, matchLit] at h
      by_cases hca : lowEq c a
      · rw [if_pos hca] at h
        obtain ⟨α₁, hs, htr⟩ := ih hw.2 h
        refine ⟨α₁, hs, fun β => ?_⟩
        rw [List.cons_append, matchLit, if_pos hca]
        exact htr β
      · rw [if_neg hca] at h
        cases h

theorem runElem_comma_none {e : PatElem} (he : elemOk e = true) (γ : List Char) :
    runElem e (',' :: γ) = none := by
  cases e with
  | ws => rfl
  | lit w =>
    simp only [elemOk, Bool.and_eq_true] at he
    cases w with
    | nil => simp [List.isEmpty] at he
    | cons c w' =>
      have hc : lowEq c ',' = false := by
        have := he.2
        simp only [List.all_cons, Bool.and_eq_true, Bool.not_eq_true'] at this
        exact this.1
      simp [runElem, matchLit, hc]

theorem runElem_split {e : PatElem} (he : elemOk e = true) :
    ∀ {α γ s₁ : List Char}, α ≠ [] → runElem e (α ++ ',' :: γ) = some s₁ →
      ∃ α₁, s₁ = α₁ ++ ',' :: γ ∧
        (α₁ = [] ∨ ∀ β, runElem e (α ++ β) = some (α₁ ++ β)) := by
  cases e with
  | ws =>
    intro α γ s₁ hα h
    cases α with
    | nil => exact absurd rfl hα
    | cons a α₂ =>
      by_cases ha : isPySpace a
      · have hs : s₁ = α₂.dropWhile isPySpace ++ ',' :: γ := by
          rw [List.cons_append] at h
          simp only [runElem, chompWs, ha, if_true, Option.some.injEq] at h
          rw [← h, dropWhile_append_keep (show isPySpace ',' = false from rfl)]
        refine ⟨α₂.dropWhile isPySpace, hs, ?_⟩
        by_cases h0 : α₂.dropWhile isPySpace = []
        · exact Or.inl h0
        · refine Or.inr fun β => ?_
          simp only [runElem, List.cons_append, chompWs, ha, if_true, Option.some.injEq]
          exact dropWhile_append_of_ne_nil h0 β
      · rw [List.cons_append] at h
        simp [runElem, chompWs, ha] at h
  | lit w =>
    intro α γ s₁ hα h
    simp only [elemOk, Bool.and_eq_true] at he
    have h' : matchLit w (α ++ ',' :: γ) = some s₁ := h
    obtain ⟨α₁, hs, htr⟩ := matchLit_split he.2 h'
    exact ⟨α₁, hs, Or.inr htr⟩

theorem runPat_split : ∀ {es : List PatElem}, es.all elemOk = true →
    ∀ {α γ r : List Char}, α ≠ [] → runPat es (α ++ ',' :: γ) = some r →
      ∃ ρ, r = ρ ++ ',' :: γ ∧
        (ρ = [] ∨ ∀ β, runPat es (α ++ β) = some (ρ ++ β)) := by
  intro es
  induction es with
  | nil =>
    intro _ α γ r hα h
    rw [runPat] at h
    injection h with h'
    exact ⟨α, h'.symm, Or.inr fun β => rfl⟩
  | cons e es' ih =>
    intro hes α γ r hα h
    simp only [List.all_cons, Bool.and_eq_true] at hes
    rw [runPat] at h
    cases hre : runElem e (α ++ ',' :: γ) with
    | none =>
      rw [hre] at h
      cases h
    | some s₁ =>
      rw [hre] at h
      simp only [Option.some_bind] at h
      obtain ⟨α₁, hs, htr⟩ := runElem_split hes.1 hα hre
      subst hs
      by_cases hα₁ : α₁ = []
      · subst hα₁
        simp only [List.nil_append] at h
        cases es' with
        | nil =>
          rw [runPat] at h
          injection h with h'
          exact ⟨[], h'.symm, Or.inl rfl⟩
        | cons e' es'' =>
          simp only [List.all_cons, Bool.and_eq_true] at hes
          rw [runPat, runElem_comma_none hes.2.1] at h
          cases h
      · have htr' := htr.resolve_left hα₁
        obtain ⟨ρ, hr, hd⟩ := ih hes.2 hα₁ h
        refine ⟨ρ, hr, ?_⟩
        rcases hd with h0 | htr2
        · exact Or.inl h0
        · refine Or.inr fun β => ?_
          rw [runPat, htr' β]
          simpa using htr2 β

theorem tailPat_ok : tailPat.all elemOk = true := rfl

/-- Core transfer: a successful tail-word match localized inside `α` replays
    against any continuation. -/
theorem restMatch_core_transfer {α γ : List Char} {out : List Char × List Char}
    (hα : α ≠ [])
    (h : (runPat tailPat (α ++ ',' :: γ)).bind vGroup = some out) (β : List Char) :
    ((runPat tailPat (α ++ β)).bind vGroup).isSome = true := by
  cases hrp : runPat tailPat (α ++ ',' :: γ) with
  | none =>
    rw [hrp] at h
    cases h
  | some s₂ =>
    rw [hrp] at h
    simp only [Option.some_bind] at h
    obtain ⟨ρ, hs, hd⟩ := runPat_split tailPat_ok hα hrp
    subst hs
    rcases hd with h0 | htr
    · subst h0
      simp [vGroup, show lowEq 'v' ',' = false from rfl] at h
    · -- extract the shape of ρ from the successful vGroup
      cases ρ with
      | nil => simp [vGroup, show lowEq 'v' ',' = false from rfl] at h
      | cons c ρ₁ =>
        by_cases hc : lowEq 'v' c
        · cases ρ₁ with
          | nil =>
            simp [vGroup, hc, show isVClass ',' = false from rfl] at h
          | cons d ρ₂ =>
            by_cases hd2 : isVClass d
            · rw [htr β]
              simp only [Option.some_bind, List.cons_append]
              exact vGroup_isSome_append ρ₂ β hc (by simpa using hd2)
            · simp only [List.cons_append] at h
              simp [vGroup, hc, hd2] at h
        · simp [vGroup, hc] at h

theorem restMatch_transfer {α γ : List Char} {out : List Char × List Char}
    (hα : α ≠ []) (h : restMatch (α ++ ',' :: γ) = some out) (β : List Char) :
    (restMatch (α ++ β)).isSome = true := by
  cases α with
  | nil => exact absurd rfl hα
  | cons a α₂ =>
    by_cases hc : a = ','
    · subst hc
      unfold restMatch at h ⊢
      rw [List.cons_append, chompComma_comma] at h
      rw [List.cons_append, chompComma_comma]
      cases hα₂ : α₂ with
      | nil =>
        rw [hα₂] at h
        simp only [List.nil_append] at h
        have hnone : runPat tailPat (',' :: γ) = none := by
          unfold tailPat
          rw [runPat, runElem_comma_none (show elemOk PatElem.ws = true from rfl)]
          rfl
        rw [hnone] at h
        exact Option.noConfusion h
      | cons b α₃ =>
        rw [hα₂] at h
        exact restMatch_core_transfer (List.cons_ne_nil b α₃) h β
    · unfold restMatch at h ⊢
      rw [List.cons_append, chompComma_cons_ne hc] at h
      rw [List.cons_append, chompComma_cons_ne hc]
      exact restMatch_core_transfer (List.cons_ne_nil a α₂)
        (by rw [← List.cons_append] at h; exact h) β

theorem restMatch_inv_v {s vr rem : List Char}
    (h : restMatch s = some (vr, rem)) :
    ∃ c d ds, vr = c :: d :: ds ∧ lowEq 'v' c = true ∧ isVClass d = true ∧
      ds.all isVClass = true := by
  unfold restMatch at h
  cases hrp : runPat tailPat (chompComma s) with
  | none =>
    rw [hrp] at h
    exact Option.noConfusion h
  | some s₂ =>
    rw [hrp] at h
    simp only [Option.some_bind] at h
    exact vGroup_inv h

/-- Inversion of an anchored match: there is a post-whitespace position `t`, a
    lazy group-1 length `k` that succeeded, all shorter lengths failed, and the
    captures are `t.take k` and the tail-match's group 2. -/
theorem matchAck_inv {s g vr : List Char}
    (h : matchAck s = some (g, vr)) :
    ∃ (t : List Char) (k : Nat) (rem : List Char), 1 ≤ k ∧ k ≤ t.length ∧ g = t.take k ∧
      (t.take k).all (fun c => decide (c ≠ '\n')) = true ∧
      restMatch (t.drop k) = some (vr, rem) ∧
      ∀ m, 1 ≤ m → m < k → restMatch (t.drop m) = none := by
  cases s with
  | nil => simp [matchAck] at h
  | cons c r =>
    rw [matchAck] at h
    by_cases hi : lowEq 'i' c
    · rw [if_pos hi] at h
      obtain ⟨_, d, _, _, hd, _⟩ := findSome?_split h
      cases htg : tryGroup1 ((chompComma r).drop d) with
      | none =>
        rw [htg] at hd
        exact Option.noConfusion hd
      | some trip =>
        rw [htg] at hd
        simp only [Option.map_some', Option.some.injEq, Prod.mk.injEq] at hd
        obtain ⟨htrip1, htrip2⟩ := hd
        rw [tryGroup1] at htg
        obtain ⟨l₁, k, l₂, hl, hk, hnone⟩ := findSome?_split htg
        obtain ⟨hl₁eq, hkeq⟩ := range'_split_inv hl
        have hkmem : k ∈ List.range' 1 ((chompComma r).drop d).length := by
          rw [hl]
          simp
        obtain ⟨hk1, hklt⟩ := List.mem_range'_1.mp hkmem
        by_cases hguard :
            (((chompComma r).drop d).take k).all (fun c => decide (c ≠ '\n')) = true
        · rw [if_pos hguard] at hk
          cases hrm : restMatch (((chompComma r).drop d).drop k) with
          | none =>
            rw [hrm] at hk
            exact Option.noConfusion hk
          | some pr =>
            rw [hrm] at hk
            simp only [Option.map_some', Option.some.injEq] at hk
            refine ⟨(chompComma r).drop d, k, pr.2, hk1, by omega, ?_, hguard, ?_, ?_⟩
            · rw [← htrip1, ← hk]
            · rw [hrm]
              have hpr1 : pr.1 = vr := by rw [← htrip2, ← hk]
              rw [← hpr1]
            · intro m hm1 hmk
              have hmmem : m ∈ List.range' 1 l₁.length := by
                rw [List.mem_range'_1]
                omega
              rw [← hl₁eq] at hmmem
              have hfm := hnone m hmmem
              have hguardm :
                  ((((chompComma r).drop d).take m).all fun c => decide (c ≠ '\n')) = true := by
                have hsub : ((chompComma r).drop d).take m
                    = (((chompComma r).drop d).take k).take m := by
                  rw [List.take_take, Nat.min_eq_left (by omega)]
                rw [hsub]
                rw [List.all_eq_true] at hguard ⊢
                intro x hx
                exact hguard x (List.take_subset _ _ hx)
              rw [if_pos hguardm] at hfm
              cases hrm2 : restMatch (((chompComma r).drop d).drop m) with
              | none => rfl
              | some pr2 =>
                rw [hrm2] at hfm
                exact Option.noConfusion hfm
        · rw [if_neg hguard] at hk
          exact Option.noConfusion hk
    · rw [if_neg hi] at h
      exact Option.noConfusion h

theorem lowEq_v_not_space {c : Char} (h : lowEq 'v' c = true) : isPySpace c = false := by
  cases hc : isPySpace c
  · rfl
  · exfalso
    simp only [isPySpace, Bool.or_eq_true, decide_eq_true_eq, or_assoc] at hc
    rcases hc with rfl | rfl | rfl | rfl | rfl | rfl <;> exact absurd h (by decide)

theorem isVClass_not_space {c : Char} (h : isVClass c = true) : isPySpace c = false := by
  cases hc : isPySpace c
  · rfl
  · exfalso
    simp only [isPySpace, Bool.or_eq_true, decide_eq_true_eq, or_assoc] at hc
    rcases hc with rfl | rfl | rfl | rfl | rfl | rfl <;> exact absurd h (by decide)

/-- Deterministic evaluation of the fixed tail over the canonical separator
    text, for an arbitrary continuation. -/
theorem restMatch_tau (w : List Char) :
    restMatch ((", acknowledge and agree to the HHG Employee Handbook ").toList ++ w)
      = vGroup (w.dropWhile isPySpace) := rfl

theorem mkAckText_toList (n v : String) :
    (mkAckText n v).toList = 'I' :: ',' :: ' ' ::
      (n.toList ++ ((", acknowledge and agree to the HHG Employee Handbook ").toList
        ++ v.toList)) := by
  show (mkAckText n v).data = _
  simp only [mkAckText, String.data_append, List.append_assoc]
  rfl

/-- C9 counterexample: the text "I,   acknowledge … v1" (no name, three
    spaces) is accepted with captured name "" — the lazy group captures the
    middle space and `strip` erases it — but re-extracting from the canonical
    phrase rebuilt from the captures yields the name ",". -/
theorem C9_empty_name_counterexample :
    extractAck "I,   acknowledge and agree to the HHG Employee Handbook v1"
      = some ("", "v1") ∧
    extractAck (mkAckText "" "v1") = some (",", "v1") := by
  decide

/-- C9 (amended): for every accepted message whose captured name is nonempty,
    re-extracting from the canonical acknowledgment phrase rebuilt from the
    captured name and version (the phrase the bot itself prints on line 192)
    yields exactly the same captures. -/
theorem C9_extraction_roundtrip (text n v : String)
    (h : extractAck text = some (n, v)) (hne : n ≠ "") :
    extractAck (mkAckText n v) = some (n, v) := by
  unfold extractAck at h
  cases hse : searchAck text.toList with
  | none =>
    rw [hse] at h
    exact Option.noConfusion h
  | some p =>
    obtain ⟨g, vr⟩ := p
    rw [hse] at h
    simp only [Option.map_some', Option.some.injEq, Prod.mk.injEq] at h
    obtain ⟨hn, hv⟩ := h
    obtain ⟨s₀, hm⟩ := searchAck_inv hse
    obtain ⟨t, k, rem, hk1, hkle, hg, hguard, hrm, hF2⟩ := matchAck_inv hm
    obtain ⟨cv, dv, ds, hvr, hcv, hdv, hds⟩ := restMatch_inv_v hrm
    have hvr_nospace : vr.all (fun ch => !isPySpace ch) = true := by
      rw [hvr, List.all_cons, List.all_cons]
      simp only [Bool.and_eq_true]
      refine ⟨by simp [lowEq_v_not_space hcv], by simp [isVClass_not_space hdv], ?_⟩
      rw [List.all_eq_true] at hds ⊢
      intro x hx
      simp [isVClass_not_space (hds x hx)]
    have hvt : v.toList = vr := by
      rw [← hv]
      show stripList vr = vr
      exact stripList_eq_self_of hvr_nospace
    have hnt : n.toList = stripList g := by
      rw [← hn]
      rfl
    have hnLne : stripList g ≠ [] := by
      intro h0
      apply hne
      rw [← hn]
      show (⟨stripList g⟩ : String) = ""
      rw [h0]
    obtain ⟨n0, nL', hnLcons⟩ : ∃ a b, stripList g = a :: b := by
      rcases hx : stripList g with _ | ⟨a, b⟩
      · exact absurd hx hnLne
      · exact ⟨a, b, rfl⟩
    have hn0 : isPySpace n0 = false := stripList_head_false hnLcons
    obtain ⟨lead, trail, hgdec, _, _⟩ := stripList_decomp g
    have hgnl : g.all (fun c => decide (c ≠ '\n')) = true := by
      rw [hg]
      exact hguard
    have hnLnl : (stripList g).all (fun c => decide (c ≠ '\n')) = true := stripList_all hgnl
    have hglen : g.length = k := by
      rw [hg, List.length_take]
      exact Nat.min_eq_left hkle
    have hglen2 : g.length = lead.length + ((stripList g).length + trail.length) := by
      conv_lhs => rw [hgdec]
      simp [List.length_append]
    have hτcons : (", acknowledge and agree to the HHG Employee Handbook ").toList
        = ',' :: (" acknowledge and agree to the HHG Employee Handbook ").toList := rfl
    have hfail : ∀ m, 1 ≤ m → m < (stripList g).length →
        restMatch ((stripList g ++
          ((", acknowledge and agree to the HHG Employee Handbook ").toList
            ++ v.toList)).drop m) = none := by
      intro m hm1 hmlt
      rw [List.drop_append_of_le_length (by omega)]
      by_contra hsome
      obtain ⟨out, hout⟩ := Option.ne_none_iff_exists'.mp hsome
      rw [hτcons, List.cons_append] at hout
      have hdropne : (stripList g).drop m ≠ [] := by
        intro h0
        have hlen := congrArg List.length h0
        rw [List.length_drop] at hlen
        simp at hlen
        omega
      have htrans := restMatch_transfer hdropne hout (trail ++ t.drop k)
      have hdrop : t.drop (lead.length + m)
          = (stripList g).drop m ++ (trail ++ t.drop k) := by
        conv_lhs =>
          rw [show t = g ++ t.drop k from by
            rw [hg]
            exact (List.take_append_drop k t).symm]
          rw [hgdec, List.append_assoc, List.append_assoc]
        rw [List.drop_append]
        rw [List.drop_append_of_le_length (le_of_lt hmlt)]
      have hm' := hF2 (lead.length + m) (by omega) (by omega)
      rw [hdrop] at hm'
      rw [hm'] at htrans
      simp at htrans
    have hsuccN : restMatch ((stripList g ++
        ((", acknowledge and agree to the HHG Employee Handbook ").toList
          ++ v.toList)).drop (stripList g).length) = some (v.toList, []) := by
      rw [List.drop_append_of_le_length (le_refl _), List.drop_length,
        List.nil_append, restMatch_tau, hvt, dropWhile_eq_self_of hvr_nospace, hvr,
        vGroup_exact hcv hdv hds, ← hvr, ← hvt]
    have hL1 : 1 ≤ (stripList g).length := by
      rw [hnLcons]
      simp
    have htg : tryGroup1 (stripList g ++
        ((", acknowledge and agree to the HHG Employee Handbook ").toList
          ++ v.toList)) = some (stripList g, v.toList, []) := by
      rw [tryGroup1]
      have hdec : List.range' 1 (stripList g ++
            ((", acknowledge and agree to the HHG Employee Handbook ").toList
              ++ v.toList)).length
          = List.range' 1 ((stripList g).length - 1) ++ (stripList g).length ::
            List.range' ((stripList g).length + 1)
              ((stripList g ++
                ((", acknowledge and agree to the HHG Employee Handbook ").toList
                  ++ v.toList)).length - (stripList g).length) := by
        rw [range'_split_at ((stripList g).length - 1) 1 _
          (by rw [List.length_append]; omega)]
        have h1 : 1 + ((stripList g).length - 1) = (stripList g).length := by omega
        have h2 : (stripList g ++
              ((", acknowledge and agree to the HHG Employee Handbook ").toList
                ++ v.toList)).length - ((stripList g).length - 1)
            = ((stripList g ++
              ((", acknowledge and agree to the HHG Employee Handbook ").toList
                ++ v.toList)).length - (stripList g).length) + 1 := by
          rw [List.length_append]
          omega
        rw [h1, h2, List.range']
      rw [hdec]
      apply findSome?_of_prefix
      · intro m hm
        obtain ⟨hm1, hm2⟩ := List.mem_range'_1.mp hm
        have hmlt : m < (stripList g).length := by omega
        have hguardm : (((stripList g ++
            ((", acknowledge and agree to the HHG Employee Handbook ").toList
              ++ v.toList)).take m).all fun c => decide (c ≠ '\n')) = true := by
          rw [List.take_append_of_le_length (by omega)]
          rw [List.all_eq_true] at hnLnl ⊢
          intro x hx
          exact hnLnl x (List.take_subset _ _ hx)
        dsimp only
        rw [if_pos hguardm, hfail m hm1 hmlt]
        rfl
      · dsimp only
        have hguardN : (((stripList g ++
            ((", acknowledge and agree to the HHG Employee Handbook ").toList
              ++ v.toList)).take (stripList g).length).all
            fun c => decide (c ≠ '\n')) = true := by
          rw [List.take_append_of_le_length (le_refl _), List.take_length]
          exact hnLnl
        rw [if_pos hguardN, hsuccN]
        simp only [Option.map_some']
        rw [List.take_append_of_le_length (le_refl _), List.take_length]
    have hmk : (mkAckText n v).toList = 'I' :: ',' :: ' ' :: (stripList g ++
        ((", acknowledge and agree to the HHG Employee Handbook ").toList
          ++ v.toList)) := by
      rw [mkAckText_toList, hnt]
    have hwd : wsDepths (' ' :: (stripList g ++
        ((", acknowledge and agree to the HHG Employee Handbook ").toList
          ++ v.toList))) = [1] := by
      rw [wsDepths, hnLcons, List.cons_append,
        List.takeWhile_cons_of_pos (show isPySpace ' ' = true from rfl),
        List.takeWhile_cons_of_neg (by simp [hn0])]
      rfl
    have hma : matchAck ((mkAckText n v).toList) = some (stripList g, v.toList) := by
      rw [hmk, matchAck, if_pos (show lowEq 'i' 'I' = true from rfl)]
      dsimp only
      rw [show chompComma (',' :: ' ' :: (stripList g ++
        ((", acknowledge and agree to the HHG Employee Handbook ").toList
          ++ v.toList))) = ' ' :: (stripList g ++
        ((", acknowledge and agree to the HHG Employee Handbook ").toList
          ++ v.toList)) from rfl]
      rw [hwd]
      simp only [List.findSome?_cons, List.drop_succ_cons, List.drop_zero, htg,
        Option.map_some']
    unfold extractAck
    rw [hmk, searchAck_cons_pos (by rw [hmk] at hma; exact hma)]
    simp only [Option.map_some', Option.some.injEq, Prod.mk.injEq]
    constructor
    · rw [← hn]
      show (⟨stripList (stripList g)⟩ : String) = ⟨stripList g⟩
      rw [stripList_idem]
    · rw [hvt, ← hv]

/-- C9 witness: the round trip at the concrete Jane Doe message. -/
theorem C9_extraction_roundtrip_witness :
    extractAck (mkAckText "Jane Doe" "v2026-01-20")
      = some ("Jane Doe", "v2026-01-20") :=
  C9_extraction_roundtrip
    "I, Jane Doe, acknowledge and agree to the HHG Employee Handbook v2026-01-20"
    "Jane Doe" "v2026-01-20" (by decide) (by decide)

theorem isSome_map {α β : Type} (f : α → β) (o : Option α) :
    (o.map f).isSome = o.isSome := by
  cases o <;> rfl

/-- A run can end `NoMatch` only when extraction failed on the text. -/
theorem noMatch_inv (allowed : Int) (f : Faults) (st : DBState) (msg : Msg)
    (h : (handle_message allowed f st msg).outcome = .NoMatch) :
    extractAck msg.text = none := by
  revert h
  unfold handle_message
  split
  · exact fun h => absurd h (by simp)
  next hne =>
    split
    · exact fun h => absurd h (by simp)
    next hchat =>
      split
      · next hex => exact fun _ => hex
      next fn ver hex =>
        split
        · exact fun h => absurd h (by simp)
        next hcf =>
          split
          · exact fun h => absurd h (by simp)
          next hff =>
            split
            · intro h
              dsimp only at h
              split at h <;> exact absurd h (by simp)
            next e hfind =>
              split
              · exact fun h => absurd h (by simp)
              next hkf =>
                split
                · exact fun h => absurd h (by simp)
                next hchk =>
                  split
                  · exact fun h => absurd h (by simp)
                  next huf =>
                    split
                    · exact fun h => absurd h (by simp)
                    · exact fun h => absurd h (by simp)

/-- C10: the acknowledgment pattern is searched anywhere inside the text: for
    every message text that contains the canonical phrase as a substring, with
    arbitrary text before and after it, extraction succeeds, and the pipeline
    does not take the silent `NoMatch` exit for such a message. -/
theorem C10_pattern_found_anywhere (pre post n v : String)
    (hne : n ≠ "") (hstrip : pyStrip n = n)
    (hnl : (n.toList.all fun c => decide (c ≠ '\n')) = true)
    (hv : ∃ c d ds, v.toList = c :: d :: ds ∧ lowEq 'v' c = true ∧
      isVClass d = true ∧ ds.all isVClass = true) :
    (extractAck (pre ++ mkAckText n v ++ post)).isSome = true ∧
    ∀ (allowed : Int) (f : Faults) (st : DBState) (msg : Msg),
      msg.text = pre ++ mkAckText n v ++ post →
      (handle_message allowed f st msg).outcome ≠ .NoMatch := by
  obtain ⟨cv, dv, ds, hvt, hcv, hdv, hds⟩ := hv
  have hntL : stripList n.toList = n.toList := congrArg String.toList hstrip
  have hnLne : n.toList ≠ [] := by
    intro h0
    apply hne
    apply String.ext
    rw [show n.data = n.toList from rfl, h0]
  obtain ⟨n0, nL', hcons⟩ : ∃ a b, n.toList = a :: b := by
    rcases hx : n.toList with _ | ⟨a, b⟩
    · exact absurd hx hnLne
    · exact ⟨a, b, rfl⟩
  have hn0 : isPySpace n0 = false :=
    stripList_head_false (l := n.toList) (by rw [hntL]; exact hcons)
  have hiso : (matchAck ((mkAckText n v).toList ++ post.toList)).isSome = true := by
    rw [mkAckText_toList, List.cons_append, List.cons_append, List.cons_append,
      List.append_assoc, List.append_assoc]
    rw [matchAck, if_pos (show lowEq 'i' 'I' = true from rfl)]
    dsimp only
    rw [show chompComma (',' :: ' ' :: (n.toList ++
      ((", acknowledge and agree to the HHG Employee Handbook ").toList ++
        (v.toList ++ post.toList)))) = ' ' :: (n.toList ++
      ((", acknowledge and agree to the HHG Employee Handbook ").toList ++
        (v.toList ++ post.toList))) from rfl]
    have hwd : wsDepths (' ' :: (n.toList ++
        ((", acknowledge and agree to the HHG Employee Handbook ").toList ++
          (v.toList ++ post.toList)))) = [1] := by
      rw [wsDepths, hcons, List.cons_append,
        List.takeWhile_cons_of_pos (show isPySpace ' ' = true from rfl),
        List.takeWhile_cons_of_neg (by simp [hn0])]
      rfl
    rw [hwd]
    apply findSome?_isSome_of_mem (show (1 : Nat) ∈ [1] by simp)
    dsimp only
    rw [List.drop_succ_cons, List.drop_zero, isSome_map]
    rw [tryGroup1]
    apply findSome?_isSome_of_mem (a := n.toList.length)
    · rw [List.mem_range'_1]
      constructor
      · rw [hcons]
        simp
      · rw [List.length_append]
        omega
    · dsimp only
      have hguardN : (((n.toList ++
          ((", acknowledge and agree to the HHG Employee Handbook ").toList ++
            (v.toList ++ post.toList))).take n.toList.length).all
          fun c => decide (c ≠ '\n')) = true := by
        rw [List.take_append_of_le_length (le_refl _), List.take_length]
        exact hnl
      rw [if_pos hguardN]
      rw [List.drop_append_of_le_length (le_refl _), List.drop_length,
        List.nil_append, restMatch_tau (v.toList ++ post.toList)]
      rw [show v.toList ++ post.toList = cv :: dv :: (ds ++ post.toList) from by
        rw [hvt]; rfl]
      rw [List.dropWhile_cons_of_neg (by simp [lowEq_v_not_space hcv])]
      rw [isSome_map]
      exact vGroup_isSome_append ds post.toList hcv hdv
  have hiso2 : (extractAck (pre ++ mkAckText n v ++ post)).isSome = true := by
    unfold extractAck
    have htoList : (pre ++ mkAckText n v ++ post).toList
        = pre.toList ++ ((mkAckText n v).toList ++ post.toList) := by
      show (pre ++ mkAckText n v ++ post).data = _
      simp [String.data_append, List.append_assoc]
    rw [htoList, isSome_map]
    exact searchAck_isSome_append _ _ hiso
  refine ⟨hiso2, ?_⟩
  intro allowed f st msg hmsg hout
  have hnone := noMatch_inv allowed f st msg hout
  rw [hmsg] at hnone
  rw [hnone] at hiso2
  simp at hiso2

/-- C10 witness: the phrase embedded between arbitrary text is still found. -/
theorem C10_pattern_found_anywhere_witness :
    (extractAck ("xx " ++ mkAckText "Jane Doe" "v2026-01-20" ++ " yy")).isSome = true ∧
    (handle_message 0 noFaults rosterJane
      ⟨"xx " ++ mkAckText "Jane Doe" "v2026-01-20" ++ " yy", 5, 10, 42, some "jd", 1700⟩
      ).outcome ≠ .NoMatch := by
  have h := C10_pattern_found_anywhere "xx " " yy" "Jane Doe" "v2026-01-20"
    (by decide) (by decide) (by decide)
    ⟨'v', '2', "026-01-20".toList, by decide, by decide, by decide, by decide⟩
  exact ⟨h.1, h.2 0 noFaults rosterJane _ rfl⟩

end HHG
